import Mathlib

/-!
Verification of the w3x ini-support extension's indexing, caching and
rendering pipeline.  The definitions below are a shallow embedding of the
TypeScript source (the second, current version of the extension module):
`ConfigSectionManager`, `FileTokenManager`, `CacheRefreshManager`,
`DecorationUpdateManager` and `IniSectionDecorationProvider`.  JavaScript
strings are modelled as `List Char`, JS `Map`s as association lists with
`Map.set` / `Map.delete` semantics, and 32-bit integer arithmetic with an
explicit wrap-around.
-/

namespace W3x

/-- File paths, modelled as character lists so that the source's
`fsPath.endsWith` suffix dispatch is provable. -/
abbrev Path := List Char

/-- JS `String.prototype.endsWith`. -/
def jsEndsWith (p : Path) (suffix : Path) : Bool :=
  suffix.isSuffixOf p

/-- JS `String.prototype.trim`: drop whitespace at both ends.  (The JS
whitespace set is larger than ASCII whitespace, but agrees with
`Char.isWhitespace` on every character appearing in the files at hand.) -/
def jsTrim (s : List Char) : List Char :=
  (s.dropWhile Char.isWhitespace).reverse.dropWhile Char.isWhitespace |>.reverse

/-- `content.split(/\r?\n/)`: split on `"\n"`, additionally consuming a
`'\r'` that immediately precedes the `'\n'`.  A lone `'\r'` stays in its
line. -/
def splitLines : List Char → List (List Char)
  | [] => [[]]
  | '\r' :: '\n' :: rest => [] :: splitLines rest
  | '\n' :: rest => [] :: splitLines rest
  | c :: rest =>
    match splitLines rest with
    | [] => [[c]]
    | l :: ls => (c :: l) :: ls

/-- JS `ToInt32`: wrap an integer into `[-2^31, 2^31)`. -/
def toInt32 (n : Int) : Int :=
  (n + 2 ^ 31) % 2 ^ 32 - 2 ^ 31

/-- The content hash used by both managers:
`hash = ((hash << 5) - hash) + charCode; hash = hash & hash` per character,
starting from `0`.  (`h << 5` coerces to int32 before shifting and wraps,
`& h` wraps the sum back to int32.) -/
def getFileHash (content : List Char) : Int :=
  content.foldl (fun h c => toInt32 (toInt32 (h * 32) - h + c.toNat)) 0

/-! ### JS `Map` as an association list (insertion ordered) -/

/-- `Map.get` — the value stored at `k`, if present. -/
def mapGet {κ α : Type} [DecidableEq κ] (m : List (κ × α)) (k : κ) : Option α :=
  (m.find? (fun e => e.1 = k)).map (·.2)

/-- `Map.set` — update the key's entry in place if the key is present
(JS maps have unique keys), else append a new entry at the end. -/
def mapSet {κ α : Type} [DecidableEq κ] (m : List (κ × α)) (k : κ) (v : α) :
    List (κ × α) :=
  match m with
  | [] => [(k, v)]
  | e :: rest => if e.1 = k then (k, v) :: rest else e :: mapSet rest k v

/-- `Map.delete`. -/
def mapDelete {κ α : Type} [DecidableEq κ] (m : List (κ × α)) (k : κ) :
    List (κ × α) :=
  m.filter (fun e => ¬ e.1 = k)

/-! ### SectionIndex: `ConfigSectionManager` -/

/-- A `vscode.Location` as stored by `scanIniFile`: the owning file and the
header's line (the stored range is always `(line, 0)-(line, 0)`). -/
structure Location where
  path : Path
  line : Nat
  deriving DecidableEq, Repr

/-- The value of `sectionCache`: definition location plus content lines. -/
structure SectionInfo where
  location : Location
  content : List (List Char)
  deriving DecidableEq, Repr

/-- State of `ConfigSectionManager`: `sectionCache` and `fileHashCache`. -/
structure ConfigState where
  sectionCache : List (List Char × SectionInfo)
  fileHashCache : List (Path × Int)
  deriving Repr

/-- The fresh manager (both caches empty). -/
def initialConfigState : ConfigState := ⟨[], []⟩

/-- `line.match(/^\[(.+?)\]$/)` applied to the raw (untrimmed) line: the
whole line must be `'['`, then at least one character, then `']'`; the
captured id is everything strictly between the outer brackets. -/
def parseHeader (line : List Char) : Option (List Char) :=
  if 3 ≤ line.length ∧ line.head? = some '[' ∧ line.getLast? = some ']' then
    some (line.drop 1).dropLast
  else
    none

/-- The `break` condition of the content loop in `scanIniFile`:
`trimmed.startsWith('[') && trimmed.endsWith(']')`. -/
def isContentStop (line : List Char) : Bool :=
  (jsTrim line).head? = some '[' && (jsTrim line).getLast? = some ']'

/-- The inner loop of `scanIniFile` collecting a section's content: walk the
lines after the header, stop at the first `[...]`-shaped trimmed line, keep
every line whose trimmed form is non-empty. -/
def collectContent : List (List Char) → List (List Char)
  | [] => []
  | l :: rest =>
    if isContentStop l then []
    else if jsTrim l = ([] : List Char) then collectContent rest
    else l :: collectContent rest

/-- One step of the header loop of `scanIniFile`: a line matching the header
regex stores `{location, content}` under its id; other lines do nothing. -/
def scanIniLine (path : Path) (lines : List (List Char))
    (cache : List (List Char × SectionInfo)) (i : Nat) (l : List Char) :
    List (List Char × SectionInfo) :=
  match parseHeader l with
  | some id => mapSet cache id ⟨⟨path, i⟩, collectContent (lines.drop (i + 1))⟩
  | none => cache

/-- The header loop of `scanIniFile` over all (index, line) pairs. -/
def scanIniBody (path : Path) (lines : List (List Char))
    (cache : List (List Char × SectionInfo)) : List (List Char × SectionInfo) :=
  lines.enum.foldl (fun c e => scanIniLine path lines c e.1 e.2) cache

/-- The removal loop of `scanIniFile`: drop every record owned by `path`. -/
def deleteOwned (cache : List (List Char × SectionInfo)) (path : Path) :
    List (List Char × SectionInfo) :=
  cache.filter (fun e => ¬ e.2.location.path = path)

/-- `ConfigSectionManager.scanIniFile`: skip when the stored hash matches,
otherwise drop the file's old records, reparse, store the new hash, and
report `true`. -/
def scanIniFile (st : ConfigState) (path : Path) (content : List Char) :
    ConfigState × Bool :=
  let newHash := getFileHash content
  if mapGet st.fileHashCache path = some newHash then
    (st, false)
  else
    let lines := splitLines content
    let cache := scanIniBody path lines (deleteOwned st.sectionCache path)
    (⟨cache, mapSet st.fileHashCache path newHash⟩, true)

/-- `ConfigSectionManager.scanAllSections` over an enumerated list of
`.ini` files (path, content); returns the new state and whether any file
changed. -/
def scanAllSections (st : ConfigState) :
    List (Path × List Char) → ConfigState × Bool
  | [] => (st, false)
  | (p, c) :: rest =>
    let r := scanIniFile st p c
    let r2 := scanAllSections r.1 rest
    (r2.1, r.2 || r2.2)

/-- `ConfigSectionManager.getAllSectionIds`. -/
def getAllSectionIds (st : ConfigState) : List (List Char) :=
  st.sectionCache.map (·.1)

/-- `ConfigSectionManager.getSectionLocation`. -/
def getSectionLocation (st : ConfigState) (id : List Char) : Option Location :=
  (mapGet st.sectionCache id).map (·.location)

/-- `ConfigSectionManager.getSectionContent`. -/
def getSectionContent (st : ConfigState) (id : List Char) :
    Option (List (List Char)) :=
  (mapGet st.sectionCache id).map (·.content)

/-! ### TokenIndex: `FileTokenManager` -/

/-- A `vscode.Position`. -/
structure Pos where
  line : Nat
  col : Nat
  deriving DecidableEq, Repr

/-- A `vscode.Range`; the source field `end` is called `stop` here. -/
structure Range where
  start : Pos
  stop : Pos
  deriving DecidableEq, Repr

/-- The range the scanner records for an occurrence of an id of length
`len` at column `k` of line `li`. -/
def mkRange (li k len : Nat) : Range :=
  ⟨⟨li, k⟩, ⟨li, k + len⟩⟩

/-- One file's entry in `fileTokenCache`: section id to found ranges. -/
abbrev TokenMap := List (List Char × List Range)

/-- State of `FileTokenManager`: `fileTokenCache` and `fileHashCache`. -/
structure TokenState where
  fileTokenCache : List (Path × TokenMap)
  fileHashCache : List (Path × Int)
  deriving Repr

/-- The fresh token manager (both caches empty). -/
def initialTokenState : TokenState := ⟨[], []⟩

/-- `FileTokenManager.isRelevantFile`. -/
def isRelevantFile (p : Path) : Bool :=
  jsEndsWith p ".ini".toList || jsEndsWith p ".lua".toList ||
  jsEndsWith p ".txt".toList || jsEndsWith p ".ts".toList ||
  jsEndsWith p ".md".toList

/-- `line.indexOf(needle, start)`: the least position `k ≥ start` at which
`needle` occurs in `line` (`none` for JS's `-1`). -/
def indexOfFrom (line needle : List Char) (start : Nat) : Option Nat :=
  ((List.range (line.length + 1)).filter
    (fun k => start ≤ k && needle.isPrefixOf (line.drop k))).head?

/-- The body of the `while`/`indexOf` loop of `scanFileTokens`, with an
explicit iteration bound: after a hit at `k` the search resumes at `k + 1`. -/
def scanFromAux (line needle : List Char) : Nat → Nat → List Nat
  | 0, _ => []
  | fuel + 1, start =>
    match indexOfFrom line needle start with
    | none => []
    | some k => k :: scanFromAux line needle fuel (k + 1)

/-- The occurrence positions visited by the `while`/`indexOf` loop of
`scanFileTokens` starting at `start`: the search position advances by at
least one per iteration, so `line.length + 1 - start` bounds the number of
iterations and the loop enumerates every occurrence in ascending order. -/
def scanFrom (line needle : List Char) (start : Nat) : List Nat :=
  scanFromAux line needle (line.length + 1 - start) start

/-- `beforeChar`: the character before position `k`, or the never-matching
sentinel modelling JS's `''` when `k` is at the start of the line. -/
def beforeChar (line : List Char) (k : Nat) : Char :=
  if 0 < k then line.getD (k - 1) (Char.ofNat 0) else Char.ofNat 0

/-- `afterChar`: the character after the occurrence `[k, k + len)`, or the
sentinel when the occurrence ends at the end of the line. -/
def afterChar (line : List Char) (k len : Nat) : Char :=
  if k + len < line.length then line.getD (k + len) (Char.ofNat 0)
  else Char.ofNat 0

/-- A quote character, `'` or `"`. -/
def isQuote (c : Char) : Bool :=
  c = '"' || c = '\''

/-- A quote character or a backtick (the `.ts` rule). -/
def isQuoteTick (c : Char) : Bool :=
  isQuote c || c = '`'

/-- `trimmed.startsWith('[')`. -/
def startsWithBracket (t : List Char) : Bool :=
  t.head? = some '['

/-- The `shouldMatch` dispatch of `scanFileTokens`, in source order:
`.lua` needs quotes on both sides, `.ts` quotes or backticks, `.ini`
accepts unless the trimmed line starts with `'['`, anything else matches
unconditionally. -/
def shouldMatchAt (path : Path) (line needle : List Char) (k : Nat) : Bool :=
  if jsEndsWith path ".lua".toList then
    isQuote (beforeChar line k) && isQuote (afterChar line k needle.length)
  else if jsEndsWith path ".ts".toList then
    isQuoteTick (beforeChar line k) && isQuoteTick (afterChar line k needle.length)
  else if jsEndsWith path ".ini".toList then
    ¬ startsWithBracket (jsTrim line)
  else
    true

/-- The accepted occurrence columns of `needle` in one line. -/
def acceptedCols (path : Path) (line needle : List Char) : List Nat :=
  (scanFrom line needle 0).filter (shouldMatchAt path line needle)

/-- The net effect of the per-occurrence `tokenMap` pushes for one
(line, id) pair: nothing when no occurrence was accepted, otherwise the
accepted ranges are appended to the id's entry (created on first push). -/
def pushMatches (tm : TokenMap) (id : List Char) (rs : List Range) : TokenMap :=
  if rs = [] then tm
  else mapSet tm id ((mapGet tm id).getD [] ++ rs)

/-- The ranges a line contributes for one id. -/
def lineRanges (path : Path) (li : Nat) (line id : List Char) : List Range :=
  (acceptedCols path line id).map (fun k => mkRange li k id.length)

/-- The inner id loop of `scanFileTokens` for one line. -/
def scanLineTokens (path : Path) (ids : List (List Char)) (li : Nat)
    (line : List Char) (tm : TokenMap) : TokenMap :=
  ids.foldl (fun tm id => pushMatches tm id (lineRanges path li line id)) tm

/-- Skip condition of the line loop: `.ini` lines whose trimmed form starts
with `'['` are skipped outright (`continue`). -/
def skipLine (path : Path) (line : List Char) : Bool :=
  jsEndsWith path ".ini".toList && startsWithBracket (jsTrim line)

/-- The line loop of `scanFileTokens`, building a file's token map. -/
def scanContent (path : Path) (ids : List (List Char))
    (lines : List (List Char)) : TokenMap :=
  lines.enum.foldl
    (fun tm e =>
      if skipLine path e.2 then tm else scanLineTokens path ids e.1 e.2 tm)
    []

/-- Stable insertion of an id into a length-descending list (an id goes
after every id of greater or equal length). -/
def insertDesc (x : List Char) : List (List Char) → List (List Char)
  | [] => [x]
  | y :: ys => if y.length < x.length then x :: y :: ys else y :: insertDesc x ys

/-- `sectionIds.sort((a, b) => b.length - a.length)`: stable sort by
descending length. -/
def sortDesc (ids : List (List Char)) : List (List Char) :=
  ids.foldr insertDesc []

/-- `FileTokenManager.scanFileTokens`: irrelevant extensions and unchanged
hashes are skipped, an empty id set aborts, otherwise the file's old entry
is dropped, the file is rescanned against the length-sorted id set, and
both caches are updated. -/
def scanFileTokens (ts : TokenState) (cfg : ConfigState) (path : Path)
    (content : List Char) : TokenState × Bool :=
  if ¬ isRelevantFile path then (ts, false)
  else
    let newHash := getFileHash content
    if mapGet ts.fileHashCache path = some newHash then (ts, false)
    else
      let ids := getAllSectionIds cfg
      if ids = [] then (ts, false)
      else
        let tm := scanContent path (sortDesc ids) (splitLines content)
        (⟨mapSet (mapDelete ts.fileTokenCache path) path tm,
          mapSet ts.fileHashCache path newHash⟩, true)

/-- `FileTokenManager.scanAllFiles` over the enumerated workspace files. -/
def scanAllFiles (ts : TokenState) (cfg : ConfigState)
    (ws : List (Path × List Char)) : TokenState :=
  ws.foldl (fun ts f => (scanFileTokens ts cfg f.1 f.2).1) ts

/-- `FileTokenManager.refreshAllTokens`: clear `fileTokenCache` and
`fileHashCache`, then rescan every workspace file at once. -/
def refreshAllTokens (_ts : TokenState) (cfg : ConfigState)
    (ws : List (Path × List Char)) : TokenState :=
  scanAllFiles initialTokenState cfg ws

/-- `FileTokenManager.getFileTokens`. -/
def getFileTokens (ts : TokenState) (path : Path) : Option TokenMap :=
  mapGet ts.fileTokenCache path

/-- The ranges recorded for an id in a token map
(`fileTokens?.get(sectionId) || []`). -/
def tokenRanges (tm : TokenMap) (id : List Char) : List Range :=
  (mapGet tm id).getD []

/-! ### RefreshCoordinator: `CacheRefreshManager` -/

/-- The two shared indices, as seen by the refresh pipeline.  The workspace
(`ws`) passed around below is the enumeration the host returns for the
glob patterns, as a list of (path, content) pairs; `scanAllSections` only
sees its `.ini` members. -/
structure SysState where
  cfg : ConfigState
  tok : TokenState

/-- The `.ini` files of a workspace (the `findFiles('**/*.ini')` result). -/
def iniFiles (ws : List (Path × List Char)) : List (Path × List Char) :=
  ws.filter (fun f => jsEndsWith f.1 ".ini".toList)

/-- The body of `CacheRefreshManager.performCacheRefresh`: rescan all
sections, and if that reported a change, clear and rebuild the whole token
index. -/
def performCacheRefresh (st : SysState) (ws : List (Path × List Char)) :
    SysState :=
  let r := scanAllSections st.cfg (iniFiles ws)
  let tok' := if r.2 then refreshAllTokens st.tok r.1 ws else st.tok
  ⟨r.1, tok'⟩

/-- Coordinator state: the `isRefreshing` lock, whether an error has been
surfaced to the host UI (`showErrorMessage`), and the indices. -/
structure CoordState where
  isRefreshing : Bool
  errorShown : Bool
  sys : SysState

/-- `CacheRefreshManager.isRefreshingCaches`. -/
def isRefreshingCaches (st : CoordState) : Bool :=
  st.isRefreshing

/-- `performCacheRefresh` with its `try`/`catch`: `err` injects a failure of
the underlying rebuild (file enumeration or read throwing inside the
progress body); the `catch` surfaces it via `showErrorMessage` and
rethrows. -/
def performCacheRefreshRun (st : CoordState) (ws : List (Path × List Char))
    (err : Option String) : CoordState × Except String Unit :=
  match err with
  | none => ({ st with sys := performCacheRefresh st.sys ws }, Except.ok ())
  | some e => ({ st with errorShown := true }, Except.error e)

/-- `CacheRefreshManager.refreshCaches`: when a refresh is already in
flight the call only awaits it; otherwise the lock is taken, the refresh
body runs, and the `finally` releases the lock whether the body returned
or threw.  (The source also awaits a pending decoration update before
taking the lock; in this sequential model that await resolves without
changing any modelled state.) -/
def refreshCaches (st : CoordState) (ws : List (Path × List Char))
    (err : Option String) : CoordState × Except String Unit :=
  if st.isRefreshing then (st, Except.ok ())
  else
    let st1 := { st with isRefreshing := true }
    let r := performCacheRefreshRun st1 ws err
    ({ r.1 with isRefreshing := false }, r.2)

/-! ### ViewportDecorationCache: `IniSectionDecorationProvider` -/

/-- `CHUNK_SIZE = 200`. -/
def CHUNK_SIZE : Nat := 200

/-- `MAX_VISIBLE_CHUNKS = 15`. -/
def MAX_VISIBLE_CHUNKS : Nat := 15

/-- `PRELOAD_BUFFER = 500`. -/
def PRELOAD_BUFFER : Nat := 500

/-- `IniSectionDecorationProvider.getChunkIndex`. -/
def getChunkIndex (lineNumber : Nat) : Nat :=
  lineNumber / CHUNK_SIZE

/-- One entry of `editor.visibleRanges`, reduced to its line span. -/
structure LineRange where
  startLine : Nat
  endLine : Nat
  deriving Repr

/-- `IniSectionDecorationProvider.getSmartVisibleRange`, reduced to the
data the claims are about: the buffered line range and the active chunk
set (returned as the list of chunk indices the source's `Set` holds, in
insertion order). -/
def getSmartVisibleRange (visibleRanges : List LineRange) (totalLines : Nat) :
    (Nat × Nat) × List Nat :=
  match visibleRanges with
  | [] => ((0, min (totalLines - 1) 500), [0, 1, 2])
  | first :: rest =>
    let last := (rest.getLast?).getD first
    let bufferStart := first.startLine - PRELOAD_BUFFER
    let bufferEnd := min (totalLines - 1) (last.endLine + PRELOAD_BUFFER)
    let startChunk := getChunkIndex bufferStart
    let endChunk := getChunkIndex bufferEnd
    let chunks := (List.range (endChunk + 1 - startChunk)).map (· + startChunk)
    if MAX_VISIBLE_CHUNKS < chunks.length then
      let centerChunk := getChunkIndex ((first.startLine + last.endLine) / 2)
      let halfMax := MAX_VISIBLE_CHUNKS / 2
      let maxChunk := getChunkIndex (totalLines - 1)
      ((bufferStart, bufferEnd),
        (((List.range (2 * halfMax + 1)).map
            (fun j : Nat => (centerChunk : Int) - (halfMax : Int) + (j : Int))).filter
          (fun i => 0 ≤ i && i ≤ (maxChunk : Int))).map Int.toNat)
    else
      ((bufferStart, bufferEnd), chunks)

/-- The externally visible actions of the rendering layer: applying a
decoration set to an editor, asking `FileTokenManager.updateFileTokens`
to rebuild one file's tokens, or going through a `CacheRefreshManager`
entry point (`refreshCaches` / `refreshIniFile` / `refreshFileTokens`). -/
inductive RenderEffect where
  | applyDecorations (file : Path) (decos : List Range)
  | tokenManagerRebuild (file : Path)
  | coordinatorRefresh
  deriving DecidableEq, Repr

/-- Whether `fileTokens` is absent or empty
(`!fileTokens || fileTokens.size === 0`). -/
def noTokens (tm? : Option TokenMap) : Bool :=
  match tm? with
  | none => true
  | some tm => tm.isEmpty

/-- Every range of a token map — the decoration set of the small-file
(full render) tier; the two larger tiers apply a subset of these ranges
and are reached through the same guards. -/
def allTokenRanges (tm : TokenMap) : List Range :=
  tm.foldl (fun acc e => acc ++ e.2) []

/-- `IniSectionDecorationProvider.updateDecorations` as an effect trace:
a running cache refresh skips the update, absent or empty token entries
leave the existing decorations untouched (no `setDecorations` call), and
only the token-bearing path applies a decoration set. -/
def updateDecorations (refreshing : Bool) (ts : TokenState) (file : Path) :
    List RenderEffect :=
  if refreshing then []
  else if noTokens (getFileTokens ts file) then []
  else
    RenderEffect.applyDecorations file
      (allTokenRanges ((getFileTokens ts file).getD [])) :: []

/-- `DecorationUpdateManager.updateActiveEditor`: skip while a cache
refresh runs; when the file has no cached tokens, rebuild them by calling
`FileTokenManager.updateFileTokens` directly, then apply decorations.
Returns the effect trace and the resulting token state. -/
def updateActiveEditor (refreshing : Bool) (ts : TokenState)
    (cfg : ConfigState) (file : Path) (content : List Char) :
    List RenderEffect × TokenState :=
  if refreshing then ([], ts)
  else
    let build := noTokens (getFileTokens ts file)
    let ts' := if build then (scanFileTokens ts cfg file content).1 else ts
    ((if build then [RenderEffect.tokenManagerRebuild file] else []) ++
      updateDecorations refreshing ts' file, ts')

/-! ### Definitions taken from the spec's words (for refinement checks) -/

/-- Modelled from the spec: a trimmed line "of the shape `[...]`" in the
sense of C3 — it starts with `'['` and ends with `']'`. -/
def specHeaderShape (t : List Char) : Bool :=
  t.head? = some '[' && t.getLast? = some ']'

/-- Modelled from the spec: C4's reading of the header rule — the header
regex applied to the trimmed line instead of the raw line. -/
def specHeaderOfTrimmed (line : List Char) : Option (List Char) :=
  parseHeader (jsTrim line)

/-! ## Lemma layer -/

/-! ### Association-map lemmas -/

theorem mapGet_nil {κ α : Type} [DecidableEq κ] (k : κ) :
    mapGet ([] : List (κ × α)) k = none := rfl

theorem mapGet_cons {κ α : Type} [DecidableEq κ]
    (a : κ) (b : α) (m : List (κ × α)) (k : κ) :
    mapGet ((a, b) :: m) k = if a = k then some b else mapGet m k := by
  unfold mapGet
  by_cases h : a = k
  · rw [List.find?_cons_of_pos _ (by simpa using h), if_pos h]
    rfl
  · rw [List.find?_cons_of_neg _ (by simpa using h), if_neg h]

theorem mapGet_mapSet {κ α : Type} [DecidableEq κ]
    (m : List (κ × α)) (k k' : κ) (v : α) :
    mapGet (mapSet m k v) k' = if k' = k then some v else mapGet m k' := by
  induction m with
  | nil =>
    unfold mapSet
    rw [mapGet_cons]
    by_cases h : k' = k
    · rw [if_pos (h ▸ rfl), if_pos h]
    · rw [if_neg (fun hh => h hh.symm), if_neg h, mapGet_nil]
  | cons e m ih =>
    obtain ⟨a, b⟩ := e
    unfold mapSet
    by_cases hak : a = k
    · subst hak
      rw [if_pos rfl, mapGet_cons, mapGet_cons]
      by_cases h : a = k'
      · rw [if_pos h, if_pos h.symm]
      · rw [if_neg h, if_neg (fun hh => h hh.symm), if_neg h]
    · rw [if_neg (by simpa using hak), mapGet_cons, mapGet_cons, ih]
      by_cases ha : a = k'
      · rw [if_pos ha, if_neg (fun hh => hak (ha.trans hh)), if_pos ha]
      · rw [if_neg ha, if_neg ha]

theorem mem_mapSet {κ α : Type} [DecidableEq κ]
    {m : List (κ × α)} {k : κ} {v : α} {e : κ × α}
    (h : e ∈ mapSet m k v) : e ∈ m ∨ e = (k, v) := by
  induction m with
  | nil =>
    unfold mapSet at h
    exact Or.inr (by simpa using h)
  | cons e' m ih =>
    unfold mapSet at h
    by_cases he : e'.1 = k
    · rw [if_pos he] at h
      rcases List.mem_cons.mp h with h | h
      · exact Or.inr h
      · exact Or.inl (List.mem_cons_of_mem _ h)
    · rw [if_neg he] at h
      rcases List.mem_cons.mp h with h | h
      · exact Or.inl (h ▸ List.mem_cons_self _ _)
      · rcases ih h with h | h
        · exact Or.inl (List.mem_cons_of_mem _ h)
        · exact Or.inr h

/-! ### Characterization of the `indexOf` scan loop -/

/-- The positions at or after `start` where `needle` occurs in `line`
(ascending). -/
def posList (line needle : List Char) (start : Nat) : List Nat :=
  (List.range' start (line.length + 1 - start)).filter
    (fun k => needle.isPrefixOf (line.drop k))

theorem filter_range_ge (n start : Nat) :
    (List.range n).filter (fun k => start ≤ k) =
      List.range' start (n - start) := by
  rcases Nat.le_total n start with h | h
  · rw [Nat.sub_eq_zero_of_le h]
    simp only [List.range'_zero]
    apply List.eq_nil_of_subset_nil
    intro k hk
    have h1 := List.of_mem_filter hk
    have h2 := List.mem_range.mp (List.mem_of_mem_filter hk)
    simp only [decide_eq_true_eq] at h1
    omega
  · have hsplit : List.range n = List.range' 0 start ++ List.range' start (n - start) := by
      rw [List.range_eq_range']
      have happ := List.range'_append 0 start (n - start) 1
      simp only [Nat.one_mul, Nat.zero_add] at happ
      rw [happ]
      congr 1
      omega
    rw [hsplit, List.filter_append]
    have h1 : (List.range' 0 start).filter (fun k => start ≤ k) = [] := by
      apply List.eq_nil_of_subset_nil
      intro k hk
      have hp := List.of_mem_filter hk
      obtain ⟨i, hi, hk2⟩ := List.mem_range'.mp (List.mem_of_mem_filter hk)
      simp only [decide_eq_true_eq] at hp
      omega
    have h2 : (List.range' start (n - start)).filter (fun k => start ≤ k) =
        List.range' start (n - start) := by
      rw [List.filter_eq_self]
      intro a ha
      obtain ⟨i, hi, ha2⟩ := List.mem_range'.mp ha
      simp only [decide_eq_true_eq]
      omega
    rw [h1, h2, List.nil_append]

theorem indexOfFrom_eq_head (line needle : List Char) (start : Nat) :
    indexOfFrom line needle start = (posList line needle start).head? := by
  unfold indexOfFrom posList
  congr 1
  have : (fun k => start ≤ k && needle.isPrefixOf (line.drop k)) =
      (fun k => needle.isPrefixOf (line.drop k) && decide (start ≤ k)) := by
    funext k
    exact Bool.and_comm _ _
  rw [this, ← List.filter_filter, filter_range_ge]

theorem filter_range'_head_decomp (p : Nat → Bool) :
    ∀ (n s k : Nat), ((List.range' s n).filter p).head? = some k →
      (List.range' s n).filter p = k :: (List.range' (k + 1) (s + n - (k + 1))).filter p := by
  intro n
  induction n with
  | zero => intro s k h; simp at h
  | succ n ih =>
    intro s k h
    rw [List.range'_succ] at h ⊢
    by_cases hp : p s
    · simp only [List.filter_cons, hp, if_pos] at h ⊢
      simp only [List.head?_cons, Option.some.injEq] at h
      subst h
      have harith : s + (n + 1) - (s + 1) = n := by omega
      rw [harith]
    · simp only [List.filter_cons, hp] at h ⊢
      simp only [Bool.false_eq_true, if_neg, not_false_iff] at h ⊢
      have hrec := ih (s + 1) k h
      have hk : s + 1 ≤ k := by
        have hmem : k ∈ (List.range' (s + 1) n).filter p :=
          List.mem_of_mem_head? (by simp [h])
        obtain ⟨i, hi, hk2⟩ := List.mem_range'.mp (List.mem_of_mem_filter hmem)
        omega
      have harith : s + 1 + n - (k + 1) = s + (n + 1) - (k + 1) := by omega
      rw [hrec, harith]

theorem posList_head_decomp {line needle : List Char} {start k : Nat}
    (h : (posList line needle start).head? = some k) :
    posList line needle start = k :: posList line needle (k + 1) ∧
      needle.isPrefixOf (line.drop k) = true ∧ start ≤ k ∧ k ≤ line.length := by
  have hmem : k ∈ posList line needle start := List.mem_of_mem_head? (by simp [h])
  have hocc := List.of_mem_filter hmem
  obtain ⟨i, hi, hk⟩ := List.mem_range'.mp (List.mem_of_mem_filter hmem)
  have hb1 : start ≤ k := by omega
  have hb2 : k ≤ line.length := by omega
  have hdec := filter_range'_head_decomp
    (fun k => needle.isPrefixOf (line.drop k)) (line.length + 1 - start) start k h
  refine ⟨?_, hocc, hb1, hb2⟩
  unfold posList
  have harith : start + (line.length + 1 - start) - (k + 1) = line.length + 1 - (k + 1) := by
    omega
  rw [hdec, harith]

theorem scanFromAux_eq_posList (line needle : List Char) :
    ∀ fuel start, line.length + 1 - start ≤ fuel →
      scanFromAux line needle fuel start = posList line needle start := by
  intro fuel
  induction fuel with
  | zero =>
    intro start hf
    have hp : posList line needle start = [] := by
      unfold posList
      rw [(by omega : line.length + 1 - start = 0)]
      rfl
    rw [hp]
    rfl
  | succ fuel ih =>
    intro start hf
    unfold scanFromAux
    cases h : indexOfFrom line needle start with
    | none =>
      rw [indexOfFrom_eq_head] at h
      exact (List.head?_eq_none_iff.mp h).symm
    | some k =>
      rw [indexOfFrom_eq_head] at h
      obtain ⟨hdec, _, hsk, hkl⟩ := posList_head_decomp h
      rw [hdec]
      show k :: scanFromAux line needle fuel (k + 1) = k :: posList line needle (k + 1)
      rw [ih (k + 1) (by omega)]

theorem scanFrom_eq_posList (line needle : List Char) (start : Nat) :
    scanFrom line needle start = posList line needle start :=
  scanFromAux_eq_posList line needle (line.length + 1 - start) start le_rfl

theorem scanFrom_zero_eq (line needle : List Char) (h : needle ≠ []) :
    scanFrom line needle 0 =
      (List.range line.length).filter (fun k => needle.isPrefixOf (line.drop k)) := by
  rw [scanFrom_eq_posList]
  unfold posList
  rw [Nat.sub_zero, ← List.range_eq_range']
  have hsucc : List.range (line.length + 1) = List.range line.length ++ [line.length] :=
    List.range_succ line.length
  rw [hsucc, List.filter_append]
  have hlast : List.filter (fun k => needle.isPrefixOf (line.drop k)) [line.length] = [] := by
    simp only [List.filter_cons, List.drop_length, List.filter_nil]
    cases needle with
    | nil => exact absurd rfl h
    | cons c cs => simp [List.isPrefixOf]
  rw [hlast, List.append_nil]

theorem mem_scanFrom_zero {line needle : List Char} (h : needle ≠ []) {k : Nat} :
    k ∈ scanFrom line needle 0 ↔
      k < line.length ∧ needle.isPrefixOf (line.drop k) = true := by
  rw [scanFrom_zero_eq line needle h, List.mem_filter, List.mem_range]

theorem scanFrom_sorted (line needle : List Char) (start : Nat) :
    (scanFrom line needle start).Pairwise (· < ·) := by
  rw [scanFrom_eq_posList]
  exact List.Pairwise.filter _ (by
    have := List.pairwise_lt_range (line.length + 1 - start)
    have hmap : List.range' start (line.length + 1 - start) =
        (List.range (line.length + 1 - start)).map (start + ·) := by
      rw [List.range'_eq_map_range]
    rw [hmap]
    exact List.Pairwise.map _ (fun a b hab => by omega) this)

/-! ### Characterization of the token-map construction -/

theorem tokenRanges_nil (s : List Char) : tokenRanges [] s = [] := rfl

theorem tokenRanges_pushMatches (tm : TokenMap) (id s : List Char)
    (rs : List Range) :
    tokenRanges (pushMatches tm id rs) s =
      if s = id then tokenRanges tm s ++ rs else tokenRanges tm s := by
  unfold pushMatches
  by_cases hrs : rs = []
  · rw [if_pos hrs]
    by_cases hs : s = id
    · rw [if_pos hs, hrs, List.append_nil]
    · rw [if_neg hs]
  · rw [if_neg hrs]
    unfold tokenRanges
    rw [mapGet_mapSet]
    by_cases hs : s = id
    · rw [if_pos hs, if_pos hs, hs]
      cases mapGet tm id <;> simp
    · rw [if_neg hs, if_neg hs]

theorem tokenRanges_scanLineTokens (path : Path) (li : Nat) (line : List Char) :
    ∀ (ids : List (List Char)) (tm : TokenMap) (s : List Char), ids.Nodup →
      tokenRanges (scanLineTokens path ids li line tm) s =
        tokenRanges tm s ++
          (if s ∈ ids then lineRanges path li line s else []) := by
  intro ids
  induction ids with
  | nil => intro tm s _; simp [scanLineTokens]
  | cons id ids ih =>
    intro tm s hnd
    have hnd' := (List.nodup_cons.mp hnd).2
    have hnotmem := (List.nodup_cons.mp hnd).1
    show tokenRanges (scanLineTokens path ids li line
      (pushMatches tm id (lineRanges path li line id))) s = _
    rw [ih _ s hnd', tokenRanges_pushMatches]
    by_cases hs : s = id
    · subst hs
      rw [if_pos rfl, if_neg hnotmem, List.append_nil,
        if_pos (List.mem_cons_self _ _)]
    · rw [if_neg hs]
      by_cases hmem : s ∈ ids
      · rw [if_pos hmem, if_pos (List.mem_cons_of_mem _ hmem)]
      · rw [if_neg hmem, if_neg (by
          intro hc
          rcases List.mem_cons.mp hc with hc | hc
          · exact hs hc
          · exact hmem hc)]

theorem tokenRanges_scanContent_aux (path : Path) (ids : List (List Char))
    (hnd : ids.Nodup) (s : List Char) :
    ∀ (ls : List (List Char)) (n : Nat) (tm : TokenMap),
      tokenRanges ((List.enumFrom n ls).foldl
        (fun tm e =>
          if skipLine path e.2 then tm else scanLineTokens path ids e.1 e.2 tm)
        tm) s =
      tokenRanges tm s ++
        (if s ∈ ids then
          (List.enumFrom n ls).flatMap
            (fun e => if skipLine path e.2 then [] else lineRanges path e.1 e.2 s)
         else []) := by
  intro ls
  induction ls with
  | nil => intro n tm; simp
  | cons l ls ih =>
    intro n tm
    rw [List.enumFrom_cons]
    simp only [List.foldl_cons, List.flatMap_cons]
    by_cases hskip : skipLine path l
    · simp only [hskip, if_pos, ite_true]
      rw [ih (n + 1) tm]
      by_cases hmem : s ∈ ids
      · rw [if_pos hmem, if_pos hmem, List.nil_append]
      · rw [if_neg hmem, if_neg hmem]
    · simp only [hskip, Bool.false_eq_true, ite_false]
      rw [ih (n + 1) (scanLineTokens path ids n l tm),
        tokenRanges_scanLineTokens path n l ids tm s hnd]
      by_cases hmem : s ∈ ids
      · rw [if_pos hmem, if_pos hmem, if_pos hmem, List.append_assoc]
      · rw [if_neg hmem, if_neg hmem, if_neg hmem, List.append_nil]

theorem tokenRanges_scanContent (path : Path) (ids : List (List Char))
    (lines : List (List Char)) (s : List Char) (hnd : ids.Nodup) :
    tokenRanges (scanContent path ids lines) s =
      if s ∈ ids then
        lines.enum.flatMap
          (fun e => if skipLine path e.2 then [] else lineRanges path e.1 e.2 s)
      else [] := by
  unfold scanContent
  have henum : lines.enum = List.enumFrom 0 lines := rfl
  rw [henum, tokenRanges_scanContent_aux path ids hnd s lines 0 [],
    tokenRanges_nil, List.nil_append]

/-! ### The id sort -/

theorem mem_insertDesc (x y : List Char) :
    ∀ l : List (List Char), y ∈ insertDesc x l ↔ y = x ∨ y ∈ l := by
  intro l
  induction l with
  | nil => simp [insertDesc]
  | cons z l ih =>
    unfold insertDesc
    by_cases h : z.length < x.length
    · rw [if_pos h]
      simp [List.mem_cons]
    · rw [if_neg h]
      simp only [List.mem_cons, ih]
      tauto

theorem nodup_insertDesc (x : List Char) :
    ∀ l : List (List Char), x ∉ l → l.Nodup → (insertDesc x l).Nodup := by
  intro l
  induction l with
  | nil => intro _ _; simp [insertDesc]
  | cons z l ih =>
    intro hx hnd
    unfold insertDesc
    obtain ⟨hz, hl⟩ := List.nodup_cons.mp hnd
    by_cases h : z.length < x.length
    · rw [if_pos h]
      refine List.nodup_cons.mpr ⟨?_, hnd⟩
      intro hc
      rcases List.mem_cons.mp hc with hc | hc
      · exact hx (hc ▸ List.mem_cons_self _ _)
      · exact hx (List.mem_cons_of_mem _ hc)
    · rw [if_neg h]
      refine List.nodup_cons.mpr ⟨?_, ih (fun hc => hx (List.mem_cons_of_mem _ hc)) hl⟩
      intro hc
      rcases (mem_insertDesc x z l).mp hc with hc | hc
      · exact hx (hc ▸ List.mem_cons_self _ _)
      · exact hz hc

theorem mem_sortDesc (x : List Char) :
    ∀ ids : List (List Char), x ∈ sortDesc ids ↔ x ∈ ids := by
  intro ids
  induction ids with
  | nil => simp [sortDesc]
  | cons id ids ih =>
    show x ∈ insertDesc id (sortDesc ids) ↔ _
    rw [mem_insertDesc, ih, List.mem_cons]

theorem nodup_sortDesc :
    ∀ ids : List (List Char), ids.Nodup → (sortDesc ids).Nodup := by
  intro ids
  induction ids with
  | nil => intro _; simp [sortDesc]
  | cons id ids ih =>
    intro hnd
    obtain ⟨hid, hids⟩ := List.nodup_cons.mp hnd
    show (insertDesc id (sortDesc ids)).Nodup
    exact nodup_insertDesc id (sortDesc ids)
      (fun hc => hid ((mem_sortDesc id ids).mp hc)) (ih hids)

/-! ### File-extension dispatch -/

theorem suffix_unique_of_length_le {p s1 s2 : List Char}
    (h1 : s1 <:+ p) (h2 : s2 <:+ p) (hlen : s2.length ≤ s1.length) :
    s2 <:+ s1 := by
  rw [← List.reverse_prefix] at h1 h2 ⊢
  exact List.prefix_of_prefix_length_le h2 h1 (by simpa using hlen)

theorem ini_not_lua {p : Path} (h : jsEndsWith p ".ini".toList = true) :
    jsEndsWith p ".lua".toList = false := by
  by_contra hc
  rw [Bool.not_eq_false] at hc
  unfold jsEndsWith at h hc
  rw [List.isSuffixOf_iff_suffix] at h hc
  have := suffix_unique_of_length_le h hc (by decide)
  have heq := (List.IsSuffix.eq_of_length this (by decide) : ".lua".toList = ".ini".toList)
  revert heq
  decide

theorem ini_not_ts {p : Path} (h : jsEndsWith p ".ini".toList = true) :
    jsEndsWith p ".ts".toList = false := by
  by_contra hc
  rw [Bool.not_eq_false] at hc
  unfold jsEndsWith at h hc
  rw [List.isSuffixOf_iff_suffix] at h hc
  have hsub := suffix_unique_of_length_le h hc (by decide)
  -- ".ts" would have to be a suffix of ".ini", which it is not
  revert hsub
  decide

theorem lua_not_ini {p : Path} (h : jsEndsWith p ".lua".toList = true) :
    jsEndsWith p ".ini".toList = false := by
  by_contra hc
  rw [Bool.not_eq_false] at hc
  unfold jsEndsWith at h hc
  rw [List.isSuffixOf_iff_suffix] at h hc
  have hsub := suffix_unique_of_length_le hc h (by decide)
  have heq := (List.IsSuffix.eq_of_length hsub (by decide) : ".lua".toList = ".ini".toList)
  revert heq
  decide

/-! ### Characterization of the section scan -/

/-- The line number of the last raw line (at or after index `n` of the
given suffix of lines) whose full text matches the header regex with
group `id`; later lines take precedence. -/
def lastHeaderIndexFrom (id : List Char) (n : Nat) : List (List Char) → Option Nat
  | [] => none
  | l :: ls =>
    (lastHeaderIndexFrom id (n + 1) ls).or
      (if parseHeader l = some id then some n else none)

/-- The SectionRecord the whole-workspace scan must end with for an id:
the record of the last header for `id` in the last scanned file that
defines `id` (later files take precedence, and within a file later
headers take precedence). -/
def lastDefRecord (id : List Char) : List (Path × List Char) → Option SectionInfo
  | [] => none
  | (p, c) :: rest =>
    (lastDefRecord id rest).or
      ((lastHeaderIndexFrom id 0 (splitLines c)).map
        (fun i => ⟨⟨p, i⟩, collectContent ((splitLines c).drop (i + 1))⟩))

theorem isSome_lastHeaderIndexFrom (id : List Char) :
    ∀ (ls : List (List Char)) (n : Nat),
      (lastHeaderIndexFrom id n ls).isSome = ls.any (fun l => parseHeader l = some id) := by
  intro ls
  induction ls with
  | nil => intro n; rfl
  | cons l ls ih =>
    intro n
    unfold lastHeaderIndexFrom
    rw [List.any_cons]
    rw [Option.isSome_or, ih (n + 1)]
    by_cases h : parseHeader l = some id
    · simp [h]
    · simp [h]

theorem lastHeaderIndexFrom_cons (id l : List Char) (ls : List (List Char))
    (n : Nat) :
    lastHeaderIndexFrom id n (l :: ls) =
      (lastHeaderIndexFrom id (n + 1) ls).or
        (if parseHeader l = some id then some n else none) := rfl

theorem scanIniLine_eq_some {path : Path} {lines : List (List Char)}
    {cache : List (List Char × SectionInfo)} {n : Nat} {l id' : List Char}
    (hph : parseHeader l = some id') :
    scanIniLine path lines cache n l =
      mapSet cache id' ⟨⟨path, n⟩, collectContent (lines.drop (n + 1))⟩ := by
  unfold scanIniLine
  rw [hph]

theorem scanIniLine_eq_none {path : Path} {lines : List (List Char)}
    {cache : List (List Char × SectionInfo)} {n : Nat} {l : List Char}
    (hph : parseHeader l = none) :
    scanIniLine path lines cache n l = cache := by
  unfold scanIniLine
  rw [hph]

theorem mapGet_scanIniBody_aux (path : Path) (lines : List (List Char))
    (id : List Char) :
    ∀ (ls : List (List Char)) (n : Nat) (cache : List (List Char × SectionInfo)),
      mapGet ((List.enumFrom n ls).foldl
        (fun c e => scanIniLine path lines c e.1 e.2) cache) id =
      match lastHeaderIndexFrom id n ls with
      | some i => some ⟨⟨path, i⟩, collectContent (lines.drop (i + 1))⟩
      | none => mapGet cache id := by
  intro ls
  induction ls with
  | nil => intro n cache; rfl
  | cons l ls ih =>
    intro n cache
    rw [List.enumFrom_cons]
    simp only [List.foldl_cons]
    rw [ih (n + 1) (scanIniLine path lines cache n l), lastHeaderIndexFrom_cons]
    cases hrec : lastHeaderIndexFrom id (n + 1) ls with
    | some j => rfl
    | none =>
      show mapGet (scanIniLine path lines cache n l) id =
        match Option.or none (if parseHeader l = some id then some n else none) with
        | some i => some ⟨⟨path, i⟩, collectContent (lines.drop (i + 1))⟩
        | none => mapGet cache id
      rw [Option.none_or]
      cases hph : parseHeader l with
      | some id' =>
        rw [scanIniLine_eq_some hph, mapGet_mapSet]
        by_cases hid : id = id'
        · subst hid
          rw [if_pos rfl, if_pos rfl]
        · rw [if_neg hid, if_neg (fun hc => hid (Option.some.inj hc).symm)]
      | none =>
        rw [scanIniLine_eq_none hph,
          if_neg (fun hc => Option.noConfusion hc)]

theorem mapGet_scanIniBody (path : Path) (lines : List (List Char))
    (id : List Char) (cache : List (List Char × SectionInfo)) :
    mapGet (scanIniBody path lines cache) id =
      match lastHeaderIndexFrom id 0 lines with
      | some i => some ⟨⟨path, i⟩, collectContent (lines.drop (i + 1))⟩
      | none => mapGet cache id := by
  unfold scanIniBody
  exact mapGet_scanIniBody_aux path lines id lines 0 cache

theorem mem_scanIniBody_aux (path : Path) (lines : List (List Char)) :
    ∀ (ls : List (List Char)) (n : Nat) (cache : List (List Char × SectionInfo))
      (e : List Char × SectionInfo),
      e ∈ (List.enumFrom n ls).foldl
        (fun c e => scanIniLine path lines c e.1 e.2) cache →
      e ∈ cache ∨ e.2.location.path = path := by
  intro ls
  induction ls with
  | nil => intro n cache e he; exact Or.inl he
  | cons l ls ih =>
    intro n cache e he
    rw [List.enumFrom_cons] at he
    simp only [List.foldl_cons] at he
    rcases ih (n + 1) (scanIniLine path lines cache n l) e he with h | h
    · unfold scanIniLine at h
      cases hph : parseHeader l with
      | some id' =>
        rw [hph] at h
        rcases mem_mapSet h with h | h
        · exact Or.inl h
        · right
          rw [h]
      | none =>
        rw [hph] at h
        exact Or.inl h
    · exact Or.inr h

theorem scanIniFile_fresh {st : ConfigState} {path : Path} {content : List Char}
    (h : mapGet st.fileHashCache path = none) :
    scanIniFile st path content =
      (⟨scanIniBody path (splitLines content) (deleteOwned st.sectionCache path),
        mapSet st.fileHashCache path (getFileHash content)⟩, true) := by
  unfold scanIniFile
  rw [h]
  simp

theorem deleteOwned_eq_self {cache : List (List Char × SectionInfo)} {path : Path}
    (h : ∀ e ∈ cache, e.2.location.path ≠ path) :
    deleteOwned cache path = cache := by
  unfold deleteOwned
  rw [List.filter_eq_self]
  intro e he
  simpa using h e he

theorem mapGet_scanAllSections (id : List Char) :
    ∀ (ws : List (Path × List Char)) (st : ConfigState),
      (ws.map (·.1)).Nodup →
      (∀ p' ∈ ws.map (·.1), mapGet st.fileHashCache p' = none) →
      (∀ e ∈ st.sectionCache, e.2.location.path ∉ ws.map (·.1)) →
      mapGet (scanAllSections st ws).1.sectionCache id =
        (lastDefRecord id ws).or (mapGet st.sectionCache id) := by
  intro ws
  induction ws with
  | nil =>
    intro st _ _ _
    show mapGet st.sectionCache id = Option.or none (mapGet st.sectionCache id)
    rw [Option.none_or]
  | cons f rest ih =>
    intro st hnd hhash howner
    obtain ⟨p, c⟩ := f
    simp only [List.map_cons] at hnd hhash howner
    have hpfresh : mapGet st.fileHashCache p = none :=
      hhash p (List.mem_cons_self _ _)
    have hdel : deleteOwned st.sectionCache p = st.sectionCache :=
      deleteOwned_eq_self (fun e he hc =>
        howner e he (by rw [hc]; exact List.mem_cons_self _ _))
    have hstep : scanAllSections st ((p, c) :: rest) =
        (let r := scanIniFile st p c
         let r2 := scanAllSections r.1 rest
         (r2.1, r.2 || r2.2)) := rfl
    rw [hstep]
    simp only [scanIniFile_fresh hpfresh]
    set st1 : ConfigState :=
      ⟨scanIniBody p (splitLines c) (deleteOwned st.sectionCache p),
        mapSet st.fileHashCache p (getFileHash c)⟩ with hst1
    have hnd' := (List.nodup_cons.mp hnd).2
    have hpnot := (List.nodup_cons.mp hnd).1
    have hhash' : ∀ p' ∈ rest.map (·.1), mapGet st1.fileHashCache p' = none := by
      intro p' hp'
      rw [hst1]
      show mapGet (mapSet st.fileHashCache p (getFileHash c)) p' = none
      rw [mapGet_mapSet]
      rw [if_neg (by intro hc; rw [hc] at hp'; exact hpnot hp')]
      exact hhash p' (List.mem_cons_of_mem _ hp')
    have howner' : ∀ e ∈ st1.sectionCache, e.2.location.path ∉ rest.map (·.1) := by
      intro e he
      rw [hst1] at he
      rcases mem_scanIniBody_aux p (splitLines c) (splitLines c) 0
          (deleteOwned st.sectionCache p) e (by rw [hdel] at he ⊢; exact he) with h | h
      · rw [hdel] at h
        intro hc
        exact howner e h (List.mem_cons_of_mem _ hc)
      · rw [h]
        exact hpnot
    rw [ih st1 hnd' hhash' howner']
    have hget1 : mapGet st1.sectionCache id =
        ((lastHeaderIndexFrom id 0 (splitLines c)).map
          (fun i => (⟨⟨p, i⟩, collectContent ((splitLines c).drop (i + 1))⟩ :
            SectionInfo))).or (mapGet st.sectionCache id) := by
      rw [hst1]
      show mapGet (scanIniBody p (splitLines c) (deleteOwned st.sectionCache p)) id = _
      rw [hdel, mapGet_scanIniBody]
      cases lastHeaderIndexFrom id 0 (splitLines c) with
      | some i => rfl
      | none => rw [Option.map_none', Option.none_or]
    rw [hget1]
    have hcons : lastDefRecord id ((p, c) :: rest) =
        (lastDefRecord id rest).or
          ((lastHeaderIndexFrom id 0 (splitLines c)).map
            (fun i => (⟨⟨p, i⟩, collectContent ((splitLines c).drop (i + 1))⟩ :
              SectionInfo))) := rfl
    rw [hcons, Option.or_assoc]

/-! ## Claim theorems -/

/-- Claim C6: every `refreshCaches` invocation entered while the
coordinator is idle releases the `Refreshing` lock when it settles —
`isRefreshingCaches` is `false` afterwards whether the underlying rebuild
resolved or threw — and a thrown rebuild surfaces its error to the host UI
and rethrows. -/
theorem C6_refresh_lock_released (st : CoordState) (ws : List (Path × List Char))
    (err : Option String) (h : st.isRefreshing = false) :
    isRefreshingCaches (refreshCaches st ws err).1 = false ∧
      (∀ e, err = some e →
        (refreshCaches st ws err).1.errorShown = true ∧
        (refreshCaches st ws err).2 = Except.error e) := by
  unfold refreshCaches isRefreshingCaches
  rw [h]
  cases err <;> simp [performCacheRefreshRun]

/-- Witness for C6: from an idle coordinator, a failing refresh still ends
with the lock released and the error surfaced. -/
theorem C6_witness :
    (⟨false, false, ⟨initialConfigState, initialTokenState⟩⟩ : CoordState).isRefreshing
        = false ∧
    isRefreshingCaches
      (refreshCaches ⟨false, false, ⟨initialConfigState, initialTokenState⟩⟩
        [] (some "scan failed")).1 = false ∧
    (refreshCaches ⟨false, false, ⟨initialConfigState, initialTokenState⟩⟩
        [] (some "scan failed")).1.errorShown = true := by
  refine ⟨rfl, ?_, ?_⟩
  · exact (C6_refresh_lock_released
      ⟨false, false, ⟨initialConfigState, initialTokenState⟩⟩
      [] (some "scan failed") rfl).1
  · exact ((C6_refresh_lock_released
      ⟨false, false, ⟨initialConfigState, initialTokenState⟩⟩
      [] (some "scan failed") rfl).2 "scan failed" rfl).1

/-- Claim C7: for every viewport position and every file length the active
chunk set computed by `getSmartVisibleRange` holds at most
`MAX_VISIBLE_CHUNKS` = 15 chunks; an over-full buffered range is re-centered
and truncated to the maximum. -/
theorem C7_chunk_bound (visibleRanges : List LineRange) (totalLines : Nat) :
    (getSmartVisibleRange visibleRanges totalLines).2.length ≤ MAX_VISIBLE_CHUNKS ∧
      MAX_VISIBLE_CHUNKS = 15 := by
  refine ⟨?_, rfl⟩
  unfold getSmartVisibleRange
  cases visibleRanges with
  | nil =>
    show ([0, 1, 2] : List Nat).length ≤ MAX_VISIBLE_CHUNKS
    decide
  | cons first rest =>
    dsimp only
    split
    · rw [List.length_map]
      refine le_trans (List.length_filter_le _ _) ?_
      rw [List.length_map, List.length_range]
      decide
    · rename_i hle
      exact Nat.not_lt.mp hle

/-- Counterexample to claim C2: after a full refresh in which the section
rescan reported a change, the token index is already fully rebuilt — the
scanned file's token map is present immediately, before any later per-file
scan or render — so the rebuild is eager, not lazy. -/
theorem C2_counterexample :
    (scanAllSections initialConfigState
      (iniFiles [("c.ini".toList, "[ab]\nab".toList)])).2 = true ∧
    getFileTokens (performCacheRefresh ⟨initialConfigState, initialTokenState⟩
        [("c.ini".toList, "[ab]\nab".toList)]).tok "c.ini".toList =
      some [("ab".toList, [mkRange 1 0 2])] := by
  decide

/-- Claim C2 as amended: whenever the section rescan of a full refresh
reports a change, the entire token index is discarded and immediately,
eagerly rebuilt by rescanning every workspace file from empty caches within
the same refresh — the result does not depend on the previous token state
in any way. -/
theorem C2_amended_eager_rebuild (st : SysState) (ws : List (Path × List Char))
    (h : (scanAllSections st.cfg (iniFiles ws)).2 = true) :
    (performCacheRefresh st ws).tok =
      scanAllFiles initialTokenState (scanAllSections st.cfg (iniFiles ws)).1 ws := by
  simp [performCacheRefresh, refreshAllTokens, h]

/-- Witness for C2: a workspace whose ini scan reports a change, starting
from a non-empty prior token cache that is discarded wholesale. -/
theorem C2_amended_witness :
    (scanAllSections
      (⟨initialConfigState, ⟨[("old.txt".toList, [("x".toList, [mkRange 0 0 1])])], []⟩⟩ :
        SysState).cfg
      (iniFiles [("c.ini".toList, "[ab]\nab".toList)])).2 = true ∧
    (performCacheRefresh
        ⟨initialConfigState, ⟨[("old.txt".toList, [("x".toList, [mkRange 0 0 1])])], []⟩⟩
        [("c.ini".toList, "[ab]\nab".toList)]).tok =
      scanAllFiles initialTokenState
        (scanAllSections initialConfigState
          (iniFiles [("c.ini".toList, "[ab]\nab".toList)])).1
        [("c.ini".toList, "[ab]\nab".toList)] :=
  ⟨by decide,
    C2_amended_eager_rebuild
      ⟨initialConfigState, ⟨[("old.txt".toList, [("x".toList, [mkRange 0 0 1])])], []⟩⟩
      [("c.ini".toList, "[ab]\nab".toList)] (by decide)⟩

/-- Counterexample to claim C4: the header regex is applied to the raw
line, not the trimmed line — a line ` [abc]` with leading whitespace trims
to a full regex match, yet the scan creates no definition for `abc`. -/
theorem C4_counterexample :
    specHeaderOfTrimmed " [abc]".toList = some "abc".toList ∧
    getSectionLocation
      (scanIniFile initialConfigState "c.ini".toList " [abc]".toList).1
      "abc".toList = none := by
  decide

/-- Claim C4 as amended: a line of a rescanned file creates a
SectionRecord exactly when the header regex matches the full raw
(untrimmed) line; malformed or partial bracket lines, and header-shaped
lines with surrounding whitespace, never become a definition. -/
theorem C4_amended_raw_header_line (p : Path) (c : List Char) (id : List Char) :
    (getSectionLocation (scanIniFile initialConfigState p c).1 id).isSome =
      (splitLines c).any (fun l => parseHeader l = some id) := by
  have hfresh : mapGet initialConfigState.fileHashCache p = none := rfl
  rw [scanIniFile_fresh hfresh]
  unfold getSectionLocation
  show ((mapGet (scanIniBody p (splitLines c)
    (deleteOwned initialConfigState.sectionCache p)) id).map (·.location)).isSome = _
  rw [mapGet_scanIniBody, ← isSome_lastHeaderIndexFrom id (splitLines c) 0]
  have hdel : deleteOwned initialConfigState.sectionCache p = [] := rfl
  rw [hdel]
  cases lastHeaderIndexFrom id 0 (splitLines c) <;> simp [mapGet_nil]

/-- Counterexample to claim C1: with ids `a` and `ab` both defined, a
`.txt` line containing `ab` yields a match for `ab` AND a match for `a` at
the overlapping position — the per-id searches are independent, so the
shorter id is not suppressed. -/
theorem C1_counterexample :
    getAllSectionIds
      (scanIniFile initialConfigState "c.ini".toList "[a]\n[ab]".toList).1 =
      ["a".toList, "ab".toList] ∧
    tokenRanges
      ((getFileTokens
        (scanFileTokens initialTokenState
          (scanIniFile initialConfigState "c.ini".toList "[a]\n[ab]".toList).1
          "f.txt".toList "ab".toList).1 "f.txt".toList).getD [])
      "ab".toList = [mkRange 0 0 2] ∧
    tokenRanges
      ((getFileTokens
        (scanFileTokens initialTokenState
          (scanIniFile initialConfigState "c.ini".toList "[a]\n[ab]".toList).1
          "f.txt".toList "ab".toList).1 "f.txt".toList).getD [])
      "a".toList = [mkRange 0 0 1] := by
  decide

/-- Claim C1 as amended: sorting candidate ids by descending length only
fixes the scan order; each id is searched independently per line, so the
ranges recorded for an id do not depend on which other ids are defined —
in particular a line containing `ab` yields a match for `ab` and also a
match for `a` inside it. -/
theorem C1_amended_matches_independent (path : Path) (lines : List (List Char))
    (ids1 ids2 : List (List Char)) (s : List Char)
    (h1 : ids1.Nodup) (h2 : ids2.Nodup) (hs1 : s ∈ ids1) (hs2 : s ∈ ids2) :
    tokenRanges (scanContent path ids1 lines) s =
      tokenRanges (scanContent path ids2 lines) s := by
  rw [tokenRanges_scanContent path ids1 lines s h1,
    tokenRanges_scanContent path ids2 lines s h2, if_pos hs1, if_pos hs2]

/-- Witness for C1: the matches for `a` on the line `ab` are the same
whether or not `ab` is also a candidate, and they are non-empty. -/
theorem C1_amended_witness :
    (["ab".toList, "a".toList] : List (List Char)).Nodup ∧
    tokenRanges
      (scanContent "f.txt".toList ["ab".toList, "a".toList] ["ab".toList])
      "a".toList =
      tokenRanges (scanContent "f.txt".toList ["a".toList] ["ab".toList])
        "a".toList ∧
    tokenRanges
      (scanContent "f.txt".toList ["ab".toList, "a".toList] ["ab".toList])
      "a".toList = [mkRange 0 0 1] :=
  ⟨by decide,
    C1_amended_matches_independent "f.txt".toList ["ab".toList]
      ["ab".toList, "a".toList] ["a".toList] "a".toList
      (by decide) (by decide) (by decide) (by decide),
    by decide⟩

/-- Counterexample to claim C3: in a configuration file, an occurrence on
the partial-bracket line `[abc` is rejected even though the trimmed line is
not a header of the shape `[...]` — the code skips every line whose trimmed
form merely starts with `'['`. -/
theorem C3_counterexample :
    specHeaderShape (jsTrim "[abc".toList) = false ∧
    getAllSectionIds
      (scanIniFile initialConfigState "c.ini".toList "[abc]\nz".toList).1 =
      ["abc".toList] ∧
    getFileTokens
      (scanFileTokens initialTokenState
        (scanIniFile initialConfigState "c.ini".toList "[abc]\nz".toList).1
        "f.ini".toList "[abc".toList).1 "f.ini".toList = some [] := by
  decide

/-- Claim C3 as amended: in `.ini` files an occurrence of a known id is
accepted as a token match if and only if the occurrence's line, after
trimming, does not start with `'['`; in particular no match is ever
recorded on a header line. -/
theorem C3_amended_ini_acceptance (path : Path) (ids : List (List Char))
    (lines : List (List Char)) (s : List Char)
    (hini : jsEndsWith path ".ini".toList = true)
    (hnd : ids.Nodup) (hs : s ∈ ids) (hne : s ≠ []) :
    tokenRanges (scanContent path ids lines) s =
      lines.enum.flatMap (fun e =>
        if startsWithBracket (jsTrim e.2) then []
        else ((List.range e.2.length).filter
          (fun k => s.isPrefixOf (e.2.drop k))).map
            (fun k => mkRange e.1 k s.length)) := by
  have hlua := ini_not_lua hini
  have hts := ini_not_ts hini
  rw [tokenRanges_scanContent path ids lines s hnd, if_pos hs]
  congr 1
  funext e
  by_cases hb : startsWithBracket (jsTrim e.2) = true
  · rw [if_pos hb, if_pos (by unfold skipLine; rw [hini, hb]; rfl)]
  · have hskip : skipLine path e.2 = false := by
      unfold skipLine
      rw [hini]
      simpa using hb
    rw [if_neg hb, if_neg (by rw [hskip]; exact Bool.false_ne_true)]
    unfold lineRanges acceptedCols
    rw [scanFrom_zero_eq e.2 s hne]
    congr 1
    apply List.filter_eq_self.mpr
    intro k hk
    unfold shouldMatchAt
    rw [hlua, hts, hini]
    simpa using hb

/-- Witness for C3: concrete `.ini` scan where a plain line yields all its
occurrences and a bracket-started line yields none. -/
theorem C3_amended_witness :
    jsEndsWith "f.ini".toList ".ini".toList = true ∧
    tokenRanges
      (scanContent "f.ini".toList ["abc".toList]
        ["x abc y".toList, "[abc".toList])
      "abc".toList =
      ([ "x abc y".toList, "[abc".toList ] : List (List Char)).enum.flatMap
        (fun e =>
          if startsWithBracket (jsTrim e.2) then []
          else ((List.range e.2.length).filter
            (fun k => "abc".toList.isPrefixOf (e.2.drop k))).map
              (fun k => mkRange e.1 k "abc".toList.length)) ∧
    tokenRanges
      (scanContent "f.ini".toList ["abc".toList]
        ["x abc y".toList, "[abc".toList])
      "abc".toList = [mkRange 0 2 3] :=
  ⟨by decide,
    C3_amended_ini_acceptance "f.ini".toList ["abc".toList]
      ["x abc y".toList, "[abc".toList] "abc".toList
      (by decide) (by decide) (by decide) (by decide),
    by decide⟩

/-- Claim C9: in `.lua` files an occurrence of a known id is accepted as a
token match if and only if it is immediately bounded on both sides by a
quote character (`'` or `"`): the recorded ranges are exactly the
quote-bounded occurrences, line by line. -/
theorem C9_lua_quote_rule (path : Path) (ids : List (List Char))
    (lines : List (List Char)) (s : List Char)
    (hlua : jsEndsWith path ".lua".toList = true)
    (hnd : ids.Nodup) (hs : s ∈ ids) (hne : s ≠ []) :
    tokenRanges (scanContent path ids lines) s =
      lines.enum.flatMap (fun e =>
        ((List.range e.2.length).filter
          (fun k => s.isPrefixOf (e.2.drop k) &&
            (isQuote (beforeChar e.2 k) &&
              isQuote (afterChar e.2 k s.length)))).map
          (fun k => mkRange e.1 k s.length)) := by
  have hini := lua_not_ini hlua
  rw [tokenRanges_scanContent path ids lines s hnd, if_pos hs]
  congr 1
  funext e
  have hskip : skipLine path e.2 = false := by
    unfold skipLine
    rw [hini]
    rfl
  rw [if_neg (by rw [hskip]; exact Bool.false_ne_true)]
  unfold lineRanges acceptedCols
  rw [scanFrom_zero_eq e.2 s hne, List.filter_filter]
  congr 1
  apply List.filter_congr
  intro k _
  unfold shouldMatchAt
  rw [hlua, if_pos rfl]
  exact Bool.and_comm _ _

/-- Witness for C9: `CreateUnit("player_unit", 1, 2)` records exactly one
quote-bounded match and the unquoted `local player_unit = 5` records
none. -/
theorem C9_witness :
    jsEndsWith "s.lua".toList ".lua".toList = true ∧
    tokenRanges
      (scanContent "s.lua".toList ["player_unit".toList]
        ["CreateUnit(\"player_unit\", 1, 2)".toList,
          "local player_unit = 5".toList])
      "player_unit".toList =
      ([ "CreateUnit(\"player_unit\", 1, 2)".toList,
         "local player_unit = 5".toList ] : List (List Char)).enum.flatMap
        (fun e =>
          ((List.range e.2.length).filter
            (fun k => "player_unit".toList.isPrefixOf (e.2.drop k) &&
              (isQuote (beforeChar e.2 k) &&
                isQuote (afterChar e.2 k "player_unit".toList.length)))).map
            (fun k => mkRange e.1 k "player_unit".toList.length)) ∧
    tokenRanges
      (scanContent "s.lua".toList ["player_unit".toList]
        ["CreateUnit(\"player_unit\", 1, 2)".toList,
          "local player_unit = 5".toList])
      "player_unit".toList = [mkRange 0 12 11] :=
  ⟨by decide,
    C9_lua_quote_rule "s.lua".toList ["player_unit".toList]
      ["CreateUnit(\"player_unit\", 1, 2)".toList,
        "local player_unit = 5".toList] "player_unit".toList
      (by decide) (by decide) (by decide) (by decide),
    by decide⟩

/-- Counterexample to claim C5: `getContent` does not run to the next
header or end of file — the collection also stops at a line whose trimmed
form is `[...]`-shaped even when that line is not a header.  In the file
`[a] / x / ' [b]' / y`, the line ` [b]` creates no definition, so under the
claim the content of `a` would be `x, ' [b]', y`; the code returns only
`x`. -/
theorem C5_counterexample :
    ((splitLines "[a]\nx\n [b]\ny".toList).any
      (fun l => parseHeader l = some "b".toList)) = false ∧
    getAllSectionIds
      (scanIniFile initialConfigState "c.ini".toList "[a]\nx\n [b]\ny".toList).1 =
      ["a".toList] ∧
    getSectionContent
      (scanIniFile initialConfigState "c.ini".toList "[a]\nx\n [b]\ny".toList).1
      "a".toList = some ["x".toList] := by
  decide

/-- Claim C5 as amended: after a full rescan from a fresh index over files
with distinct paths, `getDefinition` returns the location of the most
recently scanned `[id]` header (later files and later lines win),
`getContent` returns the non-blank lines following that header up to the
next line whose trimmed form starts with `'['` and ends with `']'` (or end
of file) — blank lines are skipped, not terminating — and both return
`none` for an id with no definition. -/
theorem C5_amended_section_reads (ws : List (Path × List Char)) (id : List Char)
    (hnd : (ws.map (·.1)).Nodup) :
    getSectionLocation (scanAllSections initialConfigState ws).1 id =
      (lastDefRecord id ws).map (·.location) ∧
    getSectionContent (scanAllSections initialConfigState ws).1 id =
      (lastDefRecord id ws).map (·.content) := by
  have hmain := mapGet_scanAllSections id ws initialConfigState hnd
    (fun p' _ => rfl) (fun e he => absurd he (List.not_mem_nil e))
  unfold getSectionLocation getSectionContent
  rw [hmain]
  cases lastDefRecord id ws <;> simp [initialConfigState, mapGet_nil]

/-- Witness for C5: a two-file workspace where both files define `x`; the
later file wins, interior blank lines are skipped, and an undefined id
reads as `none`. -/
theorem C5_witness :
    (([("a.ini".toList, "[x]\nfoo".toList),
       ("b.ini".toList, "[x]\nbar\n\nbaz".toList)].map (·.1)).Nodup) ∧
    (getSectionLocation
      (scanAllSections initialConfigState
        [("a.ini".toList, "[x]\nfoo".toList),
         ("b.ini".toList, "[x]\nbar\n\nbaz".toList)]).1 "x".toList =
      (lastDefRecord "x".toList
        [("a.ini".toList, "[x]\nfoo".toList),
         ("b.ini".toList, "[x]\nbar\n\nbaz".toList)]).map (·.location) ∧
     getSectionContent
      (scanAllSections initialConfigState
        [("a.ini".toList, "[x]\nfoo".toList),
         ("b.ini".toList, "[x]\nbar\n\nbaz".toList)]).1 "x".toList =
      (lastDefRecord "x".toList
        [("a.ini".toList, "[x]\nfoo".toList),
         ("b.ini".toList, "[x]\nbar\n\nbaz".toList)]).map (·.content)) ∧
    getSectionLocation
      (scanAllSections initialConfigState
        [("a.ini".toList, "[x]\nfoo".toList),
         ("b.ini".toList, "[x]\nbar\n\nbaz".toList)]).1 "x".toList =
      some ⟨"b.ini".toList, 0⟩ ∧
    getSectionContent
      (scanAllSections initialConfigState
        [("a.ini".toList, "[x]\nfoo".toList),
         ("b.ini".toList, "[x]\nbar\n\nbaz".toList)]).1 "x".toList =
      some ["bar".toList, "baz".toList] ∧
    getSectionContent
      (scanAllSections initialConfigState
        [("a.ini".toList, "[x]\nfoo".toList),
         ("b.ini".toList, "[x]\nbar\n\nbaz".toList)]).1 "nope".toList = none :=
  ⟨by decide,
    C5_amended_section_reads
      [("a.ini".toList, "[x]\nfoo".toList),
       ("b.ini".toList, "[x]\nbar\n\nbaz".toList)] "x".toList (by decide),
    by decide, by decide, by decide⟩

/-- `updateDecorations` can only ever apply a decoration set; it never goes
through a coordinator entry point. -/
theorem coordinatorRefresh_not_mem_updateDecorations (refreshing : Bool)
    (ts : TokenState) (file : Path) :
    RenderEffect.coordinatorRefresh ∉ updateDecorations refreshing ts file := by
  unfold updateDecorations
  by_cases h1 : refreshing = true
  · rw [if_pos h1]
    exact List.not_mem_nil _
  · rw [if_neg h1]
    by_cases h2 : noTokens (getFileTokens ts file) = true
    · rw [if_pos h2]
      exact List.not_mem_nil _
    · rw [if_neg h2]
      intro hc
      rcases List.mem_cons.mp hc with hc | hc
      · exact RenderEffect.noConfusion hc
      · exact List.not_mem_nil _ hc

/-- Counterexample to claim C8: when a file has no token entries at render
time, the activation path rebuilds the file's tokens by calling the token
manager directly; no refresh-coordinator entry point is invoked, so the
rebuild is not requested "via the refresh coordinator". -/
theorem C8_counterexample :
    noTokens (getFileTokens initialTokenState "f.txt".toList) = true ∧
    RenderEffect.tokenManagerRebuild "f.txt".toList ∈
      (updateActiveEditor false initialTokenState
        (scanIniFile initialConfigState "c.ini".toList "[ab]".toList).1
        "f.txt".toList "ab".toList).1 ∧
    RenderEffect.coordinatorRefresh ∉
      (updateActiveEditor false initialTokenState
        (scanIniFile initialConfigState "c.ini".toList "[ab]".toList).1
        "f.txt".toList "ab".toList).1 := by
  decide

/-- Claim C8 as amended: when no token entries exist for a file at render
time, `updateDecorations` applies nothing (pre-existing decorations are
kept), and the activation path rebuilds the file's tokens by calling the
token manager directly — never through a refresh-coordinator entry
point. -/
theorem C8_amended_render_effects (ts : TokenState) (cfg : ConfigState)
    (file : Path) (content : List Char)
    (h : noTokens (getFileTokens ts file) = true) :
    updateDecorations false ts file = [] ∧
    (updateActiveEditor false ts cfg file content).1 =
      RenderEffect.tokenManagerRebuild file ::
        updateDecorations false (scanFileTokens ts cfg file content).1 file ∧
    RenderEffect.coordinatorRefresh ∉
      (updateActiveEditor false ts cfg file content).1 := by
  refine ⟨?_, ?_, ?_⟩
  · unfold updateDecorations
    rw [if_neg Bool.false_ne_true, if_pos h]
  · unfold updateActiveEditor
    rw [if_neg Bool.false_ne_true]
    simp only [h, if_pos, ite_true, List.singleton_append]
  · unfold updateActiveEditor
    rw [if_neg Bool.false_ne_true]
    simp only [h, if_pos, ite_true, List.singleton_append]
    intro hc
    rcases List.mem_cons.mp hc with hc | hc
    · exact RenderEffect.noConfusion hc
    · exact coordinatorRefresh_not_mem_updateDecorations false _ file hc

/-- The order C10 asserts on a single id's recorded ranges: by line, then
left to right within a line. -/
def rangeOrder (r1 r2 : Range) : Prop :=
  r1.start.line < r2.start.line ∨
    (r1.start.line = r2.start.line ∧ r1.start.col < r2.start.col)

/-- A scan that reports `true` stores exactly the freshly computed token
map for the file. -/
theorem scanFileTokens_changed {ts : TokenState} {cfg : ConfigState}
    {path : Path} {content : List Char}
    (h1 : isRelevantFile path = true)
    (h2 : mapGet ts.fileHashCache path ≠ some (getFileHash content))
    (h3 : getAllSectionIds cfg ≠ []) :
    scanFileTokens ts cfg path content =
      (⟨mapSet (mapDelete ts.fileTokenCache path) path
          (scanContent path (sortDesc (getAllSectionIds cfg)) (splitLines content)),
        mapSet ts.fileHashCache path (getFileHash content)⟩, true) := by
  unfold scanFileTokens
  rw [if_neg (by simp [h1])]
  dsimp only
  rw [if_neg h2, if_neg h3]

/-- A scan that reports `true` ran through the rebuilding branch: the
three guard conditions held. -/
theorem scanFileTokens_changed_conditions {ts : TokenState} {cfg : ConfigState}
    {path : Path} {content : List Char}
    (h : (scanFileTokens ts cfg path content).2 = true) :
    isRelevantFile path = true ∧
      mapGet ts.fileHashCache path ≠ some (getFileHash content) ∧
      getAllSectionIds cfg ≠ [] := by
  by_cases h1 : isRelevantFile path = true
  · by_cases h2 : mapGet ts.fileHashCache path = some (getFileHash content)
    · exfalso
      unfold scanFileTokens at h
      rw [if_neg (by simp [h1])] at h
      dsimp only at h
      rw [if_pos h2] at h
      exact Bool.false_ne_true h
    · by_cases h3 : getAllSectionIds cfg = []
      · exfalso
        unfold scanFileTokens at h
        rw [if_neg (by simp [h1])] at h
        dsimp only at h
        rw [if_neg h2, if_pos h3] at h
        exact Bool.false_ne_true h
      · exact ⟨h1, h2, h3⟩
  · exfalso
    unfold scanFileTokens at h
    rw [if_pos (by simpa using h1)] at h
    exact Bool.false_ne_true h

/-- Every range a single line contributes for an id `s` starts and ends on
that line, spans `s.length` columns, and sits at an occurrence of `s`. -/
theorem mem_lineRanges {path : Path} {li : Nat} {line s : List Char} {r : Range}
    (hne : s ≠ []) (hr : r ∈ lineRanges path li line s) :
    r.start.line = li ∧ r.stop.line = li ∧
      r.stop.col = r.start.col + s.length ∧
      r.start.col < line.length ∧
      s.isPrefixOf (line.drop r.start.col) = true := by
  unfold lineRanges at hr
  obtain ⟨k, hk, hrk⟩ := List.mem_map.mp hr
  unfold acceptedCols at hk
  have hks := List.mem_of_mem_filter hk
  have hkocc := (mem_scanFrom_zero hne).mp hks
  subst hrk
  exact ⟨rfl, rfl, rfl, hkocc.1, hkocc.2⟩

/-- The per-line range lists are sorted by column. -/
theorem lineRanges_sorted (path : Path) (li : Nat) (line s : List Char) :
    (lineRanges path li line s).Pairwise
      (fun r1 r2 => r1.start.col < r2.start.col) := by
  unfold lineRanges acceptedCols
  rw [List.pairwise_map]
  exact List.Pairwise.filter _ (scanFrom_sorted line s 0)

/-- Every range in the suffix of the per-line flat map lies at or after
line `n`. -/
theorem mem_flatMap_lineRanges_ge (path : Path) (s : List Char) :
    ∀ (ls : List (List Char)) (n : Nat) (r : Range),
      r ∈ (List.enumFrom n ls).flatMap
        (fun e => if skipLine path e.2 then [] else lineRanges path e.1 e.2 s) →
      n ≤ r.start.line := by
  intro ls n r hr
  obtain ⟨e, he, hre⟩ := List.mem_flatMap.mp hr
  obtain ⟨hn, _, _⟩ := List.mem_enumFrom he
  by_cases hskip : skipLine path e.2 = true
  · rw [if_pos hskip] at hre
    exact absurd hre (List.not_mem_nil _)
  · rw [if_neg hskip] at hre
    unfold lineRanges at hre
    obtain ⟨k, _, hrk⟩ := List.mem_map.mp hre
    subst hrk
    exact hn

/-- The flat map of per-line range lists over enumerated lines is sorted
in the claimed line-then-column order. -/
theorem pairwise_rangeOrder_flatMap (path : Path) (s : List Char) :
    ∀ (ls : List (List Char)) (n : Nat),
      ((List.enumFrom n ls).flatMap
        (fun e => if skipLine path e.2 then [] else lineRanges path e.1 e.2 s)).Pairwise
        rangeOrder := by
  intro ls
  induction ls with
  | nil => intro n; simp
  | cons l ls ih =>
    intro n
    rw [List.enumFrom_cons]
    simp only [List.flatMap_cons]
    rw [List.pairwise_append]
    refine ⟨?_, ih (n + 1), ?_⟩
    · by_cases hskip : skipLine path l = true
      · rw [if_pos hskip]
        exact List.Pairwise.nil
      · rw [if_neg hskip]
        refine List.Pairwise.imp_of_mem ?_ (lineRanges_sorted path n l s)
        intro r1 r2 hr1 hr2 hcol
        right
        unfold lineRanges at hr1 hr2
        obtain ⟨k1, _, hk1⟩ := List.mem_map.mp hr1
        obtain ⟨k2, _, hk2⟩ := List.mem_map.mp hr2
        subst hk1
        subst hk2
        exact ⟨rfl, hcol⟩
    · intro r1 hr1 r2 hr2
      have hge := mem_flatMap_lineRanges_ge path s ls (n + 1) r2 hr2
      left
      by_cases hskip : skipLine path l = true
      · rw [if_pos hskip] at hr1
        exact absurd hr1 (List.not_mem_nil _)
      · rw [if_neg hskip] at hr1
        unfold lineRanges at hr1
        obtain ⟨k1, _, hk1⟩ := List.mem_map.mp hr1
        subst hk1
        show n < r2.start.line
        omega

/-- Witness for C8: a concrete render of a tokenless file keeps its
decorations and rebuilds through the token manager. -/
theorem C8_amended_witness :
    noTokens (getFileTokens initialTokenState "f.txt".toList) = true ∧
    (updateDecorations false initialTokenState "f.txt".toList = [] ∧
     (updateActiveEditor false initialTokenState
        (scanIniFile initialConfigState "c.ini".toList "[ab]".toList).1
        "f.txt".toList "ab".toList).1 =
       RenderEffect.tokenManagerRebuild "f.txt".toList ::
         updateDecorations false
           (scanFileTokens initialTokenState
             (scanIniFile initialConfigState "c.ini".toList "[ab]".toList).1
             "f.txt".toList "ab".toList).1 "f.txt".toList ∧
     RenderEffect.coordinatorRefresh ∉
      (updateActiveEditor false initialTokenState
        (scanIniFile initialConfigState "c.ini".toList "[ab]".toList).1
        "f.txt".toList "ab".toList).1) :=
  ⟨by decide,
    C8_amended_render_effects initialTokenState
      (scanIniFile initialConfigState "c.ini".toList "[ab]".toList).1
      "f.txt".toList "ab".toList (by decide)⟩

/-- Claim C10: every range a rebuilding file scan stores in the token
index is a faithful occurrence of its id: it lies on a single line, spans
exactly the id's length in columns, the file's text at the range is
exactly the id, and the ranges recorded for an id are ordered by scan
position — by line, then left to right within a line. -/
theorem C10_token_ranges_faithful (ts : TokenState) (cfg : ConfigState)
    (path : Path) (content : List Char) (s : List Char)
    (hnd : (getAllSectionIds cfg).Nodup)
    (hne : ∀ id ∈ getAllSectionIds cfg, id ≠ ([] : List Char))
    (hch : (scanFileTokens ts cfg path content).2 = true) :
    (∀ r ∈ tokenRanges
        ((getFileTokens (scanFileTokens ts cfg path content).1 path).getD []) s,
      r.start.line = r.stop.line ∧
      r.stop.col = r.start.col + s.length ∧
      r.start.line < (splitLines content).length ∧
      (((splitLines content).getD r.start.line []).drop r.start.col).take s.length
        = s) ∧
    (tokenRanges
        ((getFileTokens (scanFileTokens ts cfg path content).1 path).getD [])
        s).Pairwise rangeOrder := by
  obtain ⟨h1, h2, h3⟩ := scanFileTokens_changed_conditions hch
  rw [scanFileTokens_changed h1 h2 h3]
  unfold getFileTokens
  show (∀ r ∈ tokenRanges ((mapGet (mapSet (mapDelete ts.fileTokenCache path) path
      (scanContent path (sortDesc (getAllSectionIds cfg)) (splitLines content)))
      path).getD []) s, _) ∧
    (tokenRanges ((mapGet (mapSet (mapDelete ts.fileTokenCache path) path
      (scanContent path (sortDesc (getAllSectionIds cfg)) (splitLines content)))
      path).getD []) s).Pairwise rangeOrder
  rw [mapGet_mapSet, if_pos rfl, Option.getD_some]
  have hnd' : (sortDesc (getAllSectionIds cfg)).Nodup := nodup_sortDesc _ hnd
  by_cases hmem : s ∈ sortDesc (getAllSectionIds cfg)
  · have hsne : s ≠ [] := hne s ((mem_sortDesc s _).mp hmem)
    rw [tokenRanges_scanContent path _ (splitLines content) s hnd', if_pos hmem]
    constructor
    · intro r hr
      obtain ⟨e, he, hre⟩ := List.mem_flatMap.mp hr
      by_cases hskip : skipLine path e.2 = true
      · rw [if_pos hskip] at hre
        exact absurd hre (List.not_mem_nil _)
      · rw [if_neg hskip] at hre
        obtain ⟨hline, hstop, hwidth, hcol, hocc⟩ := mem_lineRanges hsne hre
        have hget : (splitLines content)[e.1]? = some e.2 :=
          List.mem_enum_iff_getElem?.mp he
        obtain ⟨hlt, hgetval⟩ := List.getElem?_eq_some.mp hget
        refine ⟨hline.trans hstop.symm, hwidth, ?_, ?_⟩
        · rw [hline]
          exact hlt
        · rw [List.getD_eq_getElem?_getD, hline, hget, Option.getD_some]
          exact (List.prefix_iff_eq_take.mp
            (List.isPrefixOf_iff_prefix.mp hocc)).symm
    · show List.Pairwise rangeOrder ((List.enumFrom 0 (splitLines content)).flatMap
        (fun e => if skipLine path e.2 then []
          else lineRanges path e.1 e.2 s))
      exact pairwise_rangeOrder_flatMap path s (splitLines content) 0
  · rw [tokenRanges_scanContent path _ (splitLines content) s hnd', if_neg hmem]
    exact ⟨fun r hr => absurd hr (List.not_mem_nil _), List.Pairwise.nil⟩

/-- Witness for C10: a concrete rebuilding scan, checked against the
faithfulness invariant. -/
theorem C10_witness :
    (getAllSectionIds
      (scanIniFile initialConfigState "c.ini".toList "[ab]\nz".toList).1).Nodup ∧
    (∀ id ∈ getAllSectionIds
      (scanIniFile initialConfigState "c.ini".toList "[ab]\nz".toList).1,
        id ≠ ([] : List Char)) ∧
    (scanFileTokens initialTokenState
      (scanIniFile initialConfigState "c.ini".toList "[ab]\nz".toList).1
      "f.txt".toList "ab ab".toList).2 = true ∧
    ((∀ r ∈ tokenRanges
        ((getFileTokens (scanFileTokens initialTokenState
          (scanIniFile initialConfigState "c.ini".toList "[ab]\nz".toList).1
          "f.txt".toList "ab ab".toList).1 "f.txt".toList).getD [])
        "ab".toList,
      r.start.line = r.stop.line ∧
      r.stop.col = r.start.col + "ab".toList.length ∧
      r.start.line < (splitLines "ab ab".toList).length ∧
      (((splitLines "ab ab".toList).getD r.start.line []).drop
        r.start.col).take "ab".toList.length = "ab".toList) ∧
    (tokenRanges
        ((getFileTokens (scanFileTokens initialTokenState
          (scanIniFile initialConfigState "c.ini".toList "[ab]\nz".toList).1
          "f.txt".toList "ab ab".toList).1 "f.txt".toList).getD [])
        "ab".toList).Pairwise rangeOrder) :=
  ⟨by decide, by decide, by decide,
    C10_token_ranges_faithful initialTokenState
      (scanIniFile initialConfigState "c.ini".toList "[ab]\nz".toList).1
      "f.txt".toList "ab ab".toList "ab".toList
      (by decide) (by decide) (by decide)⟩

end W3x
